import Mathlib

/-!
Verification of the `ommnia_permission_tree` permission-tree library.

The Python module stores permissions as nested ordered dictionaries
(`PermissionTreeData = Dict[str, PermissionTreeData]`): a key is one dotted-path
segment and an empty dictionary is a wildcard leaf meaning "everything below
here is granted".  We embed the data as an inductive tree whose node carries an
ordered association list, which is exactly an insertion-ordered dictionary; the
well-formedness predicate `wf` states that keys are unique at every node, which
Python dictionaries guarantee by construction.

Every operation is translated from `src/ommnia_permission_tree/permission_tree.py`:
dictionary membership and lookup become association-list lookup, dictionary
assignment becomes `setKey` (update in place, keeping the position, or append),
`del` becomes `delKey`, and the in-place mutation of `grant` and `revoke`
becomes functional rebuilding along the walked path.
-/

namespace Ommnia

/-- Nodes of the permission tree: an insertion-ordered dictionary from segment
labels to child nodes, mirroring `PermissionTreeData = Dict[str, PermissionTreeData]`. -/
inductive PermissionTreeData : Type where
  | node : List (String × PermissionTreeData) → PermissionTreeData

abbrev Entries := List (String × PermissionTreeData)

/-- Field accessor for the entry list of a node. -/
def PermissionTreeData.entries : PermissionTreeData → Entries
  | .node es => es

/-- Python `data == {}`: the node has no children (wildcard leaf). -/
def PermissionTreeData.isEmpty : PermissionTreeData → Bool
  | .node [] => true
  | .node (_ :: _) => false

/-- Python `key in data` on a dictionary. -/
def hasKey : Entries → String → Bool
  | [], _ => false
  | (k, _) :: rest, key => k == key || hasKey rest key

/-- Python `data[key]` on a dictionary (first matching entry). -/
def lookupKey : Entries → String → Option PermissionTreeData
  | [], _ => none
  | (k, v) :: rest, key => if k == key then some v else lookupKey rest key

/-- Python `data[key] = value` on an insertion-ordered dictionary: replace the
value in place when the key is present, otherwise append a new entry. -/
def setKey : Entries → String → PermissionTreeData → Entries
  | [], key, value => [(key, value)]
  | (k, v) :: rest, key, value =>
    if k == key then (key, value) :: rest else (k, v) :: setKey rest key value

/-- Python `del data[key]` on a dictionary. -/
def delKey : Entries → String → Entries
  | [], _ => []
  | (k, v) :: rest, key => if k == key then rest else (k, v) :: delKey rest key

mutual

/-- Well-formedness of the embedding: at every node all keys are distinct.
Python dictionaries cannot hold a key twice, so every tree the Python code can
build satisfies this. -/
def wfEntries : Entries → Bool
  | [] => true
  | (k, v) :: rest => !(hasKey rest k) && PermissionTreeData.wf v && wfEntries rest

/-- Well-formedness of a node (see `wfEntries`). -/
def PermissionTreeData.wf : PermissionTreeData → Bool
  | .node es => wfEntries es

end

/-- Termination helper: a value found by dictionary lookup is structurally
smaller than the entry list holding it. -/
theorem sizeOf_lookupKey : ∀ {es : Entries} {key : String} {v : PermissionTreeData},
    lookupKey es key = some v → sizeOf v < sizeOf es
  | [], _, _, h => by simp [lookupKey] at h
  | (k, w) :: rest, key, v, h => by
    rw [lookupKey] at h
    split at h
    · cases h
      simp only [List.cons.sizeOf_spec, Prod.mk.sizeOf_spec]
      omega
    · have := sizeOf_lookupKey h
      simp only [List.cons.sizeOf_spec]
      omega

/-- Python `PermissionTree.check` body on an already split segment list: walk
the segments; on a missing segment stop and report whether the current node is
empty; after consuming all segments report whether the reached node is empty. -/
def checkData : PermissionTreeData → List String → Bool
  | d, [] => d.isEmpty
  | d, segment :: rest =>
    match lookupKey d.entries segment with
    | none => d.isEmpty
    | some child => checkData child rest

/-- Python `PermissionTree.grant` rebuilt functionally: walk or create the
segments; a missing segment is created as an empty node; the last segment is
always (re)assigned an empty node, discarding anything below it. -/
def grantData : PermissionTreeData → List String → PermissionTreeData
  | d, [] => d
  | .node es, segment :: rest =>
    match lookupKey es segment with
    | none => .node (setKey es segment (grantData (.node []) rest))
    | some child =>
      if rest.isEmpty then .node (setKey es segment (.node []))
      else .node (setKey es segment (grantData child rest))

/-- Python `PermissionTree.revoke` body rebuilt functionally.  `lastSeg` is
Python `segments[-1]`; the loop deletes the key and stops as soon as the
current segment EQUALS the final segment (a value comparison, not a position
test), returns false when a segment is missing, and returns true with the tree
unchanged when the segment list is empty (the loop body never runs). -/
def revokeGo (lastSeg : String) : PermissionTreeData → List String → Bool × PermissionTreeData
  | d, [] => (true, d)
  | .node es, segment :: rest =>
    match lookupKey es segment with
    | none => (false, .node es)
    | some child =>
      if segment == lastSeg then (true, .node (delKey es segment))
      else
        let r := revokeGo lastSeg child rest
        (r.1, .node (setKey es segment r.2))

/-- Python `key in result and result[key] == {}`: the guard both passes of
`inner_union` use before touching a key. -/
def isEmptyAt (es : Entries) (key : String) : Bool :=
  match lookupKey es key with
  | some d => d.isEmpty
  | none => false

mutual

/-- Python `inner_union` inside `PermissionTree.union`: run the left-keys pass
and then the right-keys pass over a fresh result dictionary. -/
def inner_union : PermissionTreeData → PermissionTreeData → PermissionTreeData
  | .node left, .node right => .node (unionPass2 left right (unionPass1 right left []))
termination_by a b => sizeOf a + sizeOf b
decreasing_by
  all_goals simp only [PermissionTreeData.node.sizeOf_spec]
  all_goals omega

/-- First loop of `inner_union` (`for key in left`), iterating the left entries
and threading the `result` dictionary. -/
def unionPass1 : Entries → Entries → Entries → Entries
  | _, [], result => result
  | right, (key, lv) :: rest, result =>
    if isEmptyAt result key then unionPass1 right rest result
    else
      match h : lookupKey right key with
      | none => unionPass1 right rest (setKey result key lv)
      | some rv =>
        if rv.isEmpty then unionPass1 right rest (setKey result key (.node []))
        else unionPass1 right rest (setKey result key (inner_union lv rv))
termination_by right todo result => sizeOf right + sizeOf todo
decreasing_by
  all_goals simp only [PermissionTreeData.node.sizeOf_spec, List.cons.sizeOf_spec,
    Prod.mk.sizeOf_spec]
  all_goals first
    | (have hs := sizeOf_lookupKey h; omega)
    | omega

/-- Second loop of `inner_union` (`for key in right`), iterating the right
entries and threading the `result` dictionary. -/
def unionPass2 : Entries → Entries → Entries → Entries
  | _, [], result => result
  | left, (key, rv) :: rest, result =>
    if isEmptyAt result key then unionPass2 left rest result
    else
      match h : lookupKey left key with
      | none => unionPass2 left rest (setKey result key rv)
      | some lv =>
        if lv.isEmpty then unionPass2 left rest (setKey result key (.node []))
        else unionPass2 left rest (setKey result key (inner_union lv rv))
termination_by left todo result => sizeOf left + sizeOf todo
decreasing_by
  all_goals simp only [PermissionTreeData.node.sizeOf_spec, List.cons.sizeOf_spec,
    Prod.mk.sizeOf_spec]
  all_goals first
    | (have hs := sizeOf_lookupKey h; omega)
    | omega

end

mutual

/-- Python `inner_intersect` inside `PermissionTree.intersect`. -/
def inner_intersect : PermissionTreeData → PermissionTreeData → PermissionTreeData
  | .node left, .node right => .node (intersectEntries right left)
termination_by a b => sizeOf a + sizeOf b
decreasing_by
  all_goals simp only [PermissionTreeData.node.sizeOf_spec]
  all_goals omega

/-- Loop of `inner_intersect` (`for key in left`): drop keys missing on the
right, copy the right subtree when the left value is empty, else recurse.  The
result dictionary is built in left-iteration order. -/
def intersectEntries : Entries → Entries → Entries
  | _, [] => []
  | right, (key, lv) :: rest =>
    match h : lookupKey right key with
    | none => intersectEntries right rest
    | some rv =>
      (key, if lv.isEmpty then rv else inner_intersect lv rv) :: intersectEntries right rest
termination_by right todo => sizeOf right + sizeOf todo
decreasing_by
  all_goals simp only [PermissionTreeData.node.sizeOf_spec, List.cons.sizeOf_spec,
    Prod.mk.sizeOf_spec]
  all_goals first
    | (have hs := sizeOf_lookupKey h; omega)
    | omega

end

mutual

/-- Python `inner_contains` inside `PermissionTree.contains`. -/
def inner_contains : PermissionTreeData → PermissionTreeData → Bool
  | .node a, .node b => containsEntries a b
termination_by a b => sizeOf a + sizeOf b
decreasing_by
  all_goals simp only [PermissionTreeData.node.sizeOf_spec]
  all_goals omega

/-- Loop of `inner_contains` (`for key in b`): fail on a key missing from `a`,
pass when the `a` value is empty, fail when only the `b` value is empty, else
recurse into both values. -/
def containsEntries : Entries → Entries → Bool
  | _, [] => true
  | a, (key, bv) :: rest =>
    match h : lookupKey a key with
    | none => false
    | some av =>
      if av.isEmpty then containsEntries a rest
      else if bv.isEmpty then false
      else inner_contains av bv && containsEntries a rest
termination_by a todo => sizeOf a + sizeOf todo
decreasing_by
  all_goals simp only [PermissionTreeData.node.sizeOf_spec, List.cons.sizeOf_spec,
    Prod.mk.sizeOf_spec]
  all_goals first
    | (have hs := sizeOf_lookupKey h; omega)
    | omega

end

mutual

/-- Python `inner_to_strings` inside `PermissionTree.to_strings`: yield the
dot-joined accumulated segments at every empty non-root node, then recurse
into the children in order, each with its key appended to the segments. -/
def toStringsGo : PermissionTreeData → List String → List String
  | .node es, segments =>
    (if es.isEmpty && !segments.isEmpty then [String.intercalate "." segments] else [])
      ++ toStringsEntries es segments
termination_by d segments => sizeOf d
decreasing_by
  all_goals simp only [PermissionTreeData.node.sizeOf_spec]
  all_goals omega

/-- Child loop of `inner_to_strings` (`for key in data`). -/
def toStringsEntries : Entries → List String → List String
  | [], _ => []
  | (key, v) :: rest, segments =>
    toStringsGo v (segments ++ [key]) ++ toStringsEntries rest segments
termination_by todo segments => sizeOf todo
decreasing_by
  all_goals simp only [PermissionTreeData.node.sizeOf_spec, List.cons.sizeOf_spec,
    Prod.mk.sizeOf_spec]
  all_goals omega

end

/-- The `PermissionTree` dataclass: a wrapper around its root dictionary. -/
structure PermissionTree where
  _data : PermissionTreeData

/-- Python `PermissionTree.union`. -/
def PermissionTree.union (self other : PermissionTree) : PermissionTree :=
  ⟨inner_union self._data other._data⟩

/-- Python `PermissionTree.check`: split the permission on dots and walk. -/
def PermissionTree.check (self : PermissionTree) (permission : String) : Bool :=
  checkData self._data (permission.splitOn ".")

/-- Python `PermissionTree.grant` (the receiver is returned instead of being
mutated in place). -/
def PermissionTree.grant (self : PermissionTree) (permission : List String) : PermissionTree :=
  ⟨grantData self._data permission⟩

/-- Python `PermissionTree.grant_from_string`. -/
def PermissionTree.grant_from_string (self : PermissionTree) (permission : String) :
    PermissionTree :=
  self.grant (permission.splitOn ".")

/-- Python `PermissionTree.grant_many_from_strings`. -/
def PermissionTree.grant_many_from_strings (self : PermissionTree)
    (permissions : List String) : PermissionTree :=
  permissions.foldl (fun t p => t.grant_from_string p) self

/-- Python `PermissionTree.revoke`: the boolean result paired with the tree
after the in-place mutation. -/
def PermissionTree.revoke (self : PermissionTree) (permission : String) :
    Bool × PermissionTree :=
  let segments := permission.splitOn "."
  let r := revokeGo (segments.getLastD "") self._data segments
  (r.1, ⟨r.2⟩)

/-- Python `PermissionTree.contains`. -/
def PermissionTree.contains (self other : PermissionTree) : Bool :=
  inner_contains self._data other._data

/-- Python `PermissionTree.intersect`. -/
def PermissionTree.intersect (self right : PermissionTree) : PermissionTree :=
  ⟨inner_intersect self._data right._data⟩

/-- Python `PermissionTree.to_strings` (the generator materialized in yield
order). -/
def PermissionTree.to_strings (self : PermissionTree) : List String :=
  toStringsGo self._data []

/-- Well-formedness of a whole tree (unique keys at every node, as Python
dictionaries guarantee). -/
def PermissionTree.wf (self : PermissionTree) : Bool :=
  self._data.wf

/-!
Helper definitions used only by the proofs below.
-/

/-- Proof helper for the round-trip development: grant a child-relative path,
where the empty relative path denotes the node itself (assigned an empty node,
exactly what `grant` does to its last segment). -/
def grantChild (c : PermissionTreeData) (p : List String) : PermissionTreeData :=
  if p.isEmpty then .node [] else grantData c p

mutual

/-- Proof helper: the root-to-leaf relative segment paths of a tree, in
traversal order.  The empty node has exactly one leaf path, the empty path. -/
def leafPaths : PermissionTreeData → List (List String)
  | .node [] => [[]]
  | .node (e :: es) => leafPathsEntries (e :: es)
termination_by d => sizeOf d
decreasing_by
  all_goals simp only [PermissionTreeData.node.sizeOf_spec]
  all_goals omega

/-- Proof helper: leaf paths contributed by an entry list. -/
def leafPathsEntries : Entries → List (List String)
  | [] => []
  | (k, v) :: rest => (leafPaths v).map (fun p => k :: p) ++ leafPathsEntries rest
termination_by todo => sizeOf todo
decreasing_by
  all_goals simp only [PermissionTreeData.node.sizeOf_spec, List.cons.sizeOf_spec,
    Prod.mk.sizeOf_spec]
  all_goals omega

end

mutual

/-- Proof helper: no segment label anywhere in the entry list contains a dot. -/
def noDotEntries : Entries → Bool
  | [] => true
  | (k, v) :: rest => !(k.data.contains '.') && noDotData v && noDotEntries rest

/-- Proof helper: no segment label anywhere in the tree contains a dot. -/
def noDotData : PermissionTreeData → Bool
  | .node es => noDotEntries es

end

/-!
Basic lemmas about the dictionary primitives.
-/

theorem isEmpty_iff {d : PermissionTreeData} : d.isEmpty = true ↔ d = .node [] := by
  cases d with
  | node es => cases es <;> simp [PermissionTreeData.isEmpty]

theorem isEmpty_node_iff {es : Entries} :
    (PermissionTreeData.node es).isEmpty = true ↔ es = [] := by
  cases es <;> simp [PermissionTreeData.isEmpty]

theorem checkData_of_isEmpty {d : PermissionTreeData} (h : d.isEmpty = true)
    (segs : List String) : checkData d segs = true := by
  have hd : d = .node [] := isEmpty_iff.1 h
  subst hd
  cases segs with
  | nil => rfl
  | cons s rest => simp [checkData, PermissionTreeData.entries, lookupKey, PermissionTreeData.isEmpty]

theorem lookupKey_setKey_self (es : Entries) (key : String) (v : PermissionTreeData) :
    lookupKey (setKey es key v) key = some v := by
  induction es with
  | nil => simp [setKey, lookupKey]
  | cons e rest ih =>
    obtain ⟨k, w⟩ := e
    by_cases h : k = key
    · simp [setKey, lookupKey, h]
    · simp [setKey, lookupKey, h, ih]

theorem lookupKey_setKey_ne (es : Entries) {key key' : String} (v : PermissionTreeData)
    (h : key' ≠ key) : lookupKey (setKey es key v) key' = lookupKey es key' := by
  have hne : key ≠ key' := fun hh => h hh.symm
  induction es with
  | nil => simp [setKey, lookupKey, hne]
  | cons e rest ih =>
    obtain ⟨k, w⟩ := e
    by_cases hk : k = key
    · subst hk
      simp [setKey, lookupKey, hne]
    · simp only [setKey, beq_iff_eq, hk, if_false, lookupKey]
      by_cases hk' : k = key'
      · simp [hk']
      · simp [hk', ih]

theorem setKey_setKey (es : Entries) (key : String) (v w : PermissionTreeData) :
    setKey (setKey es key v) key w = setKey es key w := by
  induction es with
  | nil => simp [setKey]
  | cons e rest ih =>
    obtain ⟨k, u⟩ := e
    by_cases h : k = key
    · simp [setKey, h]
    · simp [setKey, h, ih]

theorem setKey_of_lookupKey_none {es : Entries} {key : String} (h : lookupKey es key = none)
    (v : PermissionTreeData) : setKey es key v = es ++ [(key, v)] := by
  induction es with
  | nil => simp [setKey]
  | cons e rest ih =>
    obtain ⟨k, w⟩ := e
    rw [lookupKey] at h
    by_cases hk : k = key
    · simp [hk] at h
    · simp only [beq_iff_eq, hk, if_false] at h
      simp [setKey, hk, ih h]

theorem lookupKey_append_left {es : Entries} {key : String} {v : PermissionTreeData}
    (h : lookupKey es key = some v) (more : Entries) :
    lookupKey (es ++ more) key = some v := by
  induction es with
  | nil => simp [lookupKey] at h
  | cons e rest ih =>
    obtain ⟨k, w⟩ := e
    rw [lookupKey] at h
    by_cases hk : k = key
    · simp only [hk] at h ⊢
      simpa [lookupKey] using h
    · simp only [beq_iff_eq, hk, if_false] at h
      simp [lookupKey, hk, ih h]

theorem lookupKey_append_right {es : Entries} {key : String}
    (h : lookupKey es key = none) (more : Entries) :
    lookupKey (es ++ more) key = lookupKey more key := by
  induction es with
  | nil => simp
  | cons e rest ih =>
    obtain ⟨k, w⟩ := e
    rw [lookupKey] at h
    by_cases hk : k = key
    · simp [hk] at h
    · simp only [beq_iff_eq, hk, if_false] at h
      simp [lookupKey, hk, ih h]

theorem lookupKey_mem {es : Entries} {key : String} {v : PermissionTreeData}
    (h : lookupKey es key = some v) : (key, v) ∈ es := by
  induction es with
  | nil => simp [lookupKey] at h
  | cons e rest ih =>
    obtain ⟨k, w⟩ := e
    rw [lookupKey] at h
    by_cases hk : k = key
    · simp only [hk, beq_self_eq_true, if_true, Option.some.injEq] at h
      subst h; subst hk
      exact List.mem_cons_self _ _
    · simp only [beq_iff_eq, hk, if_false] at h
      exact List.mem_cons_of_mem _ (ih h)

theorem hasKey_false_lookupKey {es : Entries} {key : String} (h : hasKey es key = false) :
    lookupKey es key = none := by
  induction es with
  | nil => rfl
  | cons e rest ih =>
    obtain ⟨k, w⟩ := e
    rw [hasKey, Bool.or_eq_false_iff] at h
    rw [lookupKey]
    simp only [beq_eq_false_iff_ne, ne_eq] at h
    simp [h.1, ih h.2]

theorem wfEntries_cons {k : String} {v : PermissionTreeData} {rest : Entries} :
    wfEntries ((k, v) :: rest) = true ↔
      hasKey rest k = false ∧ v.wf = true ∧ wfEntries rest = true := by
  rw [wfEntries]
  simp [Bool.and_eq_true, Bool.not_eq_true', and_assoc]

theorem wf_node {es : Entries} : (PermissionTreeData.node es).wf = wfEntries es := by
  rw [PermissionTreeData.wf]

theorem wf_of_lookupKey {es : Entries} {key : String} {v : PermissionTreeData}
    (hwf : wfEntries es = true) (h : lookupKey es key = some v) : v.wf = true := by
  induction es with
  | nil => simp [lookupKey] at h
  | cons e rest ih =>
    obtain ⟨k, w⟩ := e
    rw [wfEntries_cons] at hwf
    rw [lookupKey] at h
    by_cases hk : k = key
    · simp only [hk, beq_self_eq_true, if_true, Option.some.injEq] at h
      exact h ▸ hwf.2.1
    · simp only [beq_iff_eq, hk, if_false] at h
      exact ih hwf.2.2 h

theorem hasKey_of_mem {es : Entries} {key : String} {v : PermissionTreeData}
    (h : (key, v) ∈ es) : hasKey es key = true := by
  induction es with
  | nil => simp at h
  | cons e rest ih =>
    obtain ⟨k, w⟩ := e
    rcases List.mem_cons.1 h with h1 | h2
    · cases h1; simp [hasKey]
    · simp [hasKey, ih h2]

theorem lookupKey_of_mem_wf {es : Entries} {key : String} {v : PermissionTreeData}
    (hwf : wfEntries es = true) (h : (key, v) ∈ es) : lookupKey es key = some v := by
  induction es with
  | nil => simp at h
  | cons e rest ih =>
    obtain ⟨k, w⟩ := e
    rw [wfEntries_cons] at hwf
    rcases List.mem_cons.1 h with h1 | h2
    · cases h1
      simp [lookupKey]
    · have hk : k ≠ key := by
        intro hk
        subst hk
        rw [hasKey_of_mem h2] at hwf
        simp at hwf
      simp [lookupKey, hk, ih hwf.2.2 h2]

/-!
Bridge between `String.splitOn`/`String.intercalate` and their `List Char`
models, specialized to the single-character separator `"."` that the Python
code uses everywhere.  This lets the theorems below evaluate and reason about
dotted-path strings.
-/


theorem pos_sub_mk (a b : Nat) : (⟨a⟩ - ⟨b⟩ : String.Pos) = ⟨a - b⟩ := rfl

theorem pos_sub_zero (p : String.Pos) : p - 0 = p := rfl

theorem dot_get_zero : ("." : String).get 0 = '.' := rfl

theorem dot_next_zero : ("." : String).next 0 = ⟨1⟩ := rfl

theorem dot_atEnd_one : ("." : String).atEnd ⟨1⟩ = true := rfl

theorem dot_utf8Size : ('.' : Char).utf8Size = 1 := rfl

theorem splitOnAux_dot (r : List Char) : ∀ (l m : List Char) (acc : List String),
    String.splitOnAux ⟨l ++ m ++ r⟩ "." ⟨String.utf8Len l⟩
        ⟨String.utf8Len l + String.utf8Len m⟩ 0 acc =
      acc.reverse ++ (List.splitOnP.go (fun c => c == '.') r m.reverse).map String.mk := by
  induction r with
  | nil =>
    intro l m acc
    unfold String.splitOnAux
    simp only [List.append_nil]
    rw [show ({ data := l ++ m } : String).atEnd ⟨String.utf8Len l + String.utf8Len m⟩ = true
      from by simpa using String.atEnd_of_valid (l ++ m) []]
    rw [show ({ data := l ++ m } : String).extract ⟨String.utf8Len l⟩
          ⟨String.utf8Len l + String.utf8Len m⟩ = ⟨m⟩
      from by simpa using String.extract_of_valid l m []]
    simp [List.splitOnP.go]
  | cons c r ih =>
    intro l m acc
    unfold String.splitOnAux
    simp only [List.append_assoc, List.cons_append, List.nil_append]
    have hAtEnd : ({ data := l ++ (m ++ c :: r) } : String).atEnd
        ⟨String.utf8Len l + String.utf8Len m⟩ = false := by
      have h := String.atEnd_of_valid (l ++ m) (c :: r)
      simp only [List.append_assoc, String.utf8Len_append] at h
      cases hB : ({ data := l ++ (m ++ c :: r) } : String).atEnd
          ⟨String.utf8Len l + String.utf8Len m⟩
      · rfl
      · rw [hB] at h
        simp at h
    have hGet : ({ data := l ++ (m ++ c :: r) } : String).get
        ⟨String.utf8Len l + String.utf8Len m⟩ = c := by
      simpa using String.get_of_valid (l ++ m) (c :: r)
    have hNext : ({ data := l ++ (m ++ c :: r) } : String).next
        ⟨String.utf8Len l + String.utf8Len m⟩ =
        ⟨String.utf8Len l + String.utf8Len m + c.utf8Size⟩ := by
      simpa using String.next_of_valid (l ++ m) c r
    rw [if_neg (by rw [hAtEnd]; exact Bool.false_ne_true)]
    rw [hGet, dot_get_zero, dot_next_zero, dot_atEnd_one]
    by_cases hc : c = '.'
    · subst hc
      rw [if_pos (show ('.' == '.') = true from rfl)]
      rw [hNext, dot_utf8Size, pos_sub_mk, Nat.add_sub_cancel]
      rw [if_pos (show (true : Bool) = true from rfl)]
      rw [show ({ data := l ++ (m ++ '.' :: r) } : String).extract ⟨String.utf8Len l⟩
            ⟨String.utf8Len l + String.utf8Len m⟩ = ⟨m⟩
        from by simpa using String.extract_of_valid l m ('.' :: r)]
      have h2 := ih (l ++ m ++ ['.']) [] (⟨m⟩ :: acc)
      simp only [List.append_nil, List.append_assoc, List.singleton_append, List.cons_append,
        List.nil_append, String.utf8Len_append, String.utf8Len_cons, String.utf8Len_nil,
        dot_utf8Size, Nat.zero_add, Nat.add_zero, List.reverse_nil, List.reverse_cons,
        ← Nat.add_assoc] at h2
      rw [h2]
      simp [List.splitOnP.go]
    · have hcb : (c == '.') = false := by simpa using hc
      rw [if_neg (by rw [hcb]; exact Bool.false_ne_true), pos_sub_zero, hNext]
      have h2 := ih l (m ++ [c]) acc
      simp only [List.append_nil, List.append_assoc, List.singleton_append, List.cons_append,
        List.nil_append, String.utf8Len_append, String.utf8Len_cons, String.utf8Len_nil,
        Nat.zero_add, Nat.add_zero, List.reverse_append, List.reverse_cons, List.reverse_nil,
        ← Nat.add_assoc] at h2
      rw [h2]
      simp [List.splitOnP.go, hcb]

theorem mk_data_eq (s : String) : String.mk s.data = s := by
  cases s
  rfl

theorem splitOn_dot (s : String) : s.splitOn "." = (s.data.splitOn '.').map String.mk := by
  obtain ⟨d⟩ := s
  have h := splitOnAux_dot d [] [] []
  simpa [String.splitOn, List.splitOn, List.splitOnP,
    show (("." : String) == "") = false from rfl] using h

theorem splitOn_dot_ne_nil (s : String) : s.splitOn "." ≠ [] := by
  rw [splitOn_dot]
  simp [List.splitOn, List.splitOnP_ne_nil]

theorem intercalate_go_data (as : List String) : ∀ (acc : String),
    (String.intercalate.go acc "." as).data =
      acc.data ++ (as.map (fun a => '.' :: a.data)).join := by
  induction as with
  | nil => intro acc; simp [String.intercalate.go]
  | cons a as ih =>
    intro acc
    rw [String.intercalate.go, ih]
    simp [String.data_append, show ("." : String).data = ['.'] from rfl]

theorem intercalate_singleton_cons (ds : List (List Char)) : ∀ (d : List Char),
    List.intercalate ['.'] (d :: ds) = d ++ (ds.map (fun e => '.' :: e)).join := by
  induction ds with
  | nil => intro d; simp [List.intercalate]
  | cons e es ih =>
    intro d
    simp only [List.intercalate, List.intersperse_cons_cons, List.join_cons] at ih ⊢
    rw [ih e]
    simp

theorem intercalate_dot_data (L : List String) (hne : L ≠ []) :
    (String.intercalate "." L).data = List.intercalate ['.'] (L.map String.data) := by
  match L with
  | a :: as =>
    rw [String.intercalate, intercalate_go_data, List.map_cons, intercalate_singleton_cons]
    simp only [List.map_map]
    rfl

theorem splitOn_intercalate_dot (L : List String) (hne : L ≠ [])
    (hdot : ∀ s ∈ L, '.' ∉ s.data) :
    (String.intercalate "." L).splitOn "." = L := by
  rw [splitOn_dot, intercalate_dot_data L hne]
  rw [List.splitOn_intercalate (L.map String.data) '.'
    (by intro l hl
        obtain ⟨s, hs, rfl⟩ := List.mem_map.1 hl
        exact hdot s hs)
    (by simpa using hne)]
  rw [List.map_map, show String.mk ∘ String.data = id from funext mk_data_eq, List.map_id]

/-!
Definitional unfolding lemmas for the method wrappers.
-/

theorem check_def (t : PermissionTree) (p : String) :
    t.check p = checkData t._data (p.splitOn ".") := rfl

theorem revoke_def (t : PermissionTree) (p : String) :
    t.revoke p = ((revokeGo ((p.splitOn ".").getLastD "") t._data (p.splitOn ".")).1,
      ⟨(revokeGo ((p.splitOn ".").getLastD "") t._data (p.splitOn ".")).2⟩) := rfl

theorem grant_from_string_def (t : PermissionTree) (p : String) :
    t.grant_from_string p = ⟨grantData t._data (p.splitOn ".")⟩ := rfl

/-!
Claim C5: a freshly constructed empty tree grants every path.
-/

/-- C5: for every dotted-path string P (including the empty string), a freshly
constructed empty tree satisfies check(P) = true: the walk stops at the first
segment, which is absent from the empty root, and reports that the root is the
empty (wildcard) node. -/
theorem c5_empty_tree_checks_every_path (P : String) :
    (PermissionTree.mk (.node [])).check P = true := by
  rw [check_def]
  cases P.splitOn "." with
  | nil => rfl
  | cons s rest => rfl

/-!
Claim C8: grant is idempotent.  We prove the stronger structural fact that the
second grant rebuilds the identical tree.
-/

/-- Characterization of one grant step: the head segment key is (re)assigned;
when no segment remains the assigned child is the empty node, otherwise the
walk continues in the existing child (or a fresh empty node). -/
theorem grantData_cons (es : Entries) (segment : String) (rest : List String) :
    grantData (.node es) (segment :: rest) =
      .node (setKey es segment (grantChild ((lookupKey es segment).getD (.node [])) rest)) := by
  cases h : lookupKey es segment with
  | none =>
    simp only [grantData, h, Option.getD_none, grantChild]
    cases rest with
    | nil => rfl
    | cons r rs => rfl
  | some child =>
    simp only [grantData, h, Option.getD_some, grantChild]
    cases rest with
    | nil => rfl
    | cons r rs => simp [List.isEmpty_cons]

/-- Granting the same segment sequence twice rebuilds the identical tree. -/
theorem grantData_idem : ∀ (segs : List String) (d : PermissionTreeData),
    grantData (grantData d segs) segs = grantData d segs
  | [], .node es => rfl
  | segment :: rest, .node es => by
    rw [grantData_cons es segment rest]
    rw [grantData_cons (setKey es segment
      (grantChild ((lookupKey es segment).getD (.node [])) rest)) segment rest]
    rw [lookupKey_setKey_self, setKey_setKey, Option.getD_some]
    cases hr : rest with
    | nil => rfl
    | cons r rs =>
      show PermissionTreeData.node (setKey es segment
          (grantChild (grantChild ((lookupKey es segment).getD (.node [])) (r :: rs)) (r :: rs)))
        = _
      rw [grantChild, grantChild]
      simp only [List.isEmpty_cons, Bool.false_eq_true, if_false]
      rw [grantData_idem (r :: rs)]

/-- C8: for every tree T, segment-sequence path P, and dotted-path string Q,
granting P twice in succession yields a tree whose check result on Q is the
same as after granting P once (indeed the trees are structurally identical). -/
theorem c8_grant_idempotent (T : PermissionTree) (P : List String) (Q : String) :
    ((T.grant P).grant P).check Q = (T.grant P).check Q := by
  rw [PermissionTree.grant, PermissionTree.grant, check_def, check_def]
  rw [grantData_idem]

/-!
Claim C1: the code violates intersection conservatism.  Intersecting the tree
that grants only "x" with the tree that grants only "y" produces a tree whose
root dictionary is empty, and an empty node is the wildcard that grants every
path, so the intersection grants "z" although neither input does.
-/

/-- C1, behavior of the code at the failing input: with A granting only "x"
and B granting only "y", A.intersect(B).check("z") is true while both
A.check("z") and B.check("z") are false — the intersection grants a path that
neither input grants. -/
theorem c1_intersect_not_conservative :
    ((⟨.node [("x", .node [])]⟩ : PermissionTree).intersect
        ⟨.node [("y", .node [])]⟩).check "z" = true
    ∧ (⟨.node [("x", .node [])]⟩ : PermissionTree).check "z" = false
    ∧ (⟨.node [("y", .node [])]⟩ : PermissionTree).check "z" = false := by
  refine ⟨?_, ?_, ?_⟩
  · rw [show (⟨.node [("x", .node [])]⟩ : PermissionTree).intersect
          ⟨.node [("y", .node [])]⟩ = ⟨.node []⟩ from by
        simp [PermissionTree.intersect, inner_intersect, intersectEntries, lookupKey]]
    rw [check_def, splitOn_dot]
    decide
  · rw [check_def, splitOn_dot]
    decide
  · rw [check_def, splitOn_dot]
    decide

/-!
Claim C4: the revoke contract is broken for paths whose final segment string
also occurs as an earlier segment.  The loop tests `segment == segments[-1]`,
a value comparison, so revoking "a.b.a" on a tree granting exactly "a.b.a"
deletes the key "a" at the ROOT (wiping the entire tree) instead of deleting
the inner "a" under "a.b".
-/

/-- C4, behavior of the code at the failing input: revoking "a.b.a" on the
tree that grants exactly "a.b.a" returns true but deletes the root key "a",
leaving the completely empty tree, not the tree with "a.b" mapped to an empty
node that the claim demands (so in particular the result, being empty, grants
every path again). -/
theorem c4_revoke_deletes_first_match :
    ((⟨.node [("a", .node [("b", .node [("a", .node [])])])]⟩ : PermissionTree).revoke
        "a.b.a").1 = true
    ∧ ((⟨.node [("a", .node [("b", .node [("a", .node [])])])]⟩ : PermissionTree).revoke
        "a.b.a").2._data = .node []
    ∧ (PermissionTreeData.node []) ≠ .node [("a", .node [("b", .node [])])] := by
  refine ⟨?_, ?_, ?_⟩
  · rw [revoke_def, splitOn_dot]
    decide
  · rw [revoke_def, splitOn_dot]
    rfl
  · intro h
    cases h

/-!
Claim C3: the superset law.  It fails when B's root node is empty (the loop
over an empty dictionary succeeds vacuously although an empty B grants
everything); with a non-empty root on B the law holds.
-/

theorem contains_def (A B : PermissionTree) :
    A.contains B = inner_contains A._data B._data := rfl

/-- Inner loop of `contains`: success means every entry of the iterated list
is matched in `a` by an empty node or by a recursively containing non-empty
pair. -/
theorem containsEntries_spec : ∀ (todo a : Entries), containsEntries a todo = true →
    ∀ kv ∈ todo, ∃ av, lookupKey a kv.1 = some av ∧
      (av.isEmpty = true ∨ (kv.2.isEmpty = false ∧ inner_contains av kv.2 = true)) := by
  intro todo
  induction todo with
  | nil => intro a h kv hkv; simp at hkv
  | cons e rest ih =>
    intro a h kv hkv
    obtain ⟨k, bv⟩ := e
    rw [containsEntries] at h
    split at h
    · cases h
    · rename_i av hl
      rcases List.mem_cons.1 hkv with h1 | h2
      · subst h1
        refine ⟨av, hl, ?_⟩
        by_cases hav : av.isEmpty = true
        · exact Or.inl hav
        · rw [if_neg hav] at h
          by_cases hbv : bv.isEmpty = true
          · rw [if_pos hbv] at h; cases h
          · rw [if_neg hbv, Bool.and_eq_true] at h
            exact Or.inr ⟨Bool.eq_false_iff.2 hbv, h.1⟩
      · by_cases hav : av.isEmpty = true
        · rw [if_pos hav] at h
          exact ih a h kv h2
        · rw [if_neg hav] at h
          by_cases hbv : bv.isEmpty = true
          · rw [if_pos hbv] at h; cases h
          · rw [if_neg hbv, Bool.and_eq_true] at h
            exact ih a h.2 kv h2

/-- Core of the amended superset law, on segment lists: if `inner_contains a b`
succeeds and `b` is not the empty node, every path checked true in `b` is
checked true in `a`. -/
theorem contains_check_mono : ∀ (segs : List String) (a b : PermissionTreeData),
    inner_contains a b = true → b.isEmpty = false →
    checkData b segs = true → checkData a segs = true := by
  intro segs
  induction segs with
  | nil =>
    intro a b hc hB hchk
    rw [checkData] at hchk
    rw [hchk] at hB
    cases hB
  | cons s rest ih =>
    intro a b hc hB hchk
    obtain ⟨ea⟩ := a
    obtain ⟨eb⟩ := b
    rw [checkData] at hchk
    split at hchk
    · rw [hchk] at hB
      cases hB
    · rename_i bv hl
      rw [inner_contains] at hc
      have hmem : (s, bv) ∈ eb := lookupKey_mem hl
      obtain ⟨av, hav, hcase⟩ := containsEntries_spec eb ea hc (s, bv) hmem
      rw [checkData]
      rw [show (PermissionTreeData.node ea).entries = ea from rfl, hav]
      rcases hcase with h1 | h2
      · exact checkData_of_isEmpty h1 rest
      · exact ih av bv h2.2 h2.1 hchk

/-- C3 as amended: for trees A and B with B's root node non-empty, if
A.contains(B) returns true, then every dotted-path string P with
B.check(P) = true also has A.check(P) = true. -/
theorem c3_contains_superset (A B : PermissionTree) (hc : A.contains B = true)
    (hB : B._data.isEmpty = false) (P : String) (hP : B.check P = true) :
    A.check P = true := by
  rw [check_def] at hP ⊢
  rw [contains_def] at hc
  exact contains_check_mono (P.splitOn ".") A._data B._data hc hB hP

/-- C3, counterexample to the claim as stated: with A granting only "x" and B
the empty tree (B's root node empty), A.contains(B) returns true and
B.check("y") is true, yet A.check("y") is false. -/
theorem c3_contains_counterexample :
    (⟨.node [("x", .node [])]⟩ : PermissionTree).contains ⟨.node []⟩ = true
    ∧ (⟨.node []⟩ : PermissionTree).check "y" = true
    ∧ (⟨.node [("x", .node [])]⟩ : PermissionTree).check "y" = false := by
  refine ⟨?_, ?_, ?_⟩
  · simp [contains_def, inner_contains, containsEntries]
  · rw [check_def, splitOn_dot]; decide
  · rw [check_def, splitOn_dot]; decide

/-- C3, witness for the amended theorem at a concrete input. -/
theorem c3_contains_superset_witness :
    ((⟨.node [("x", .node [])]⟩ : PermissionTree).contains ⟨.node [("x", .node [])]⟩ = true
      ∧ (PermissionTreeData.node [("x", .node [])]).isEmpty = false
      ∧ (⟨.node [("x", .node [])]⟩ : PermissionTree).check "x.q" = true)
    ∧ (⟨.node [("x", .node [])]⟩ : PermissionTree).check "x.q" = true := by
  have h1 : (⟨.node [("x", .node [])]⟩ : PermissionTree).contains
      ⟨.node [("x", .node [])]⟩ = true := by
    simp [contains_def, inner_contains, containsEntries, lookupKey, PermissionTreeData.isEmpty]
  have h2 : (PermissionTreeData.node [("x", .node [])]).isEmpty = false := rfl
  have h3 : (⟨.node [("x", .node [])]⟩ : PermissionTree).check "x.q" = true := by
    rw [check_def, splitOn_dot]; decide
  exact ⟨⟨h1, h2, h3⟩, c3_contains_superset _ _ h1 h2 "x.q" h3⟩

/-!
Claim C10: contains is reflexive on every well-formed tree (every tree a
Python dictionary graph can represent).
-/

mutual

/-- Loop invariant for reflexivity: when every iterated entry is found by
lookup at its own key with a well-formed subtree, the containment loop
succeeds. -/
theorem containsEntries_refl : ∀ (todo a : Entries),
    (∀ kv ∈ todo, lookupKey a kv.1 = some kv.2 ∧ PermissionTreeData.wf kv.2 = true) →
    containsEntries a todo = true
  | [], a, h => by rw [containsEntries]
  | (k, bv) :: rest, a, h => by
    obtain ⟨hl, hwf⟩ := h (k, bv) (List.mem_cons_self _ _)
    rw [containsEntries]
    split
    · rename_i hnone
      rw [hl] at hnone
      cases hnone
    · rename_i av hsome
      rw [hl] at hsome
      injection hsome with he
      subst he
      by_cases hbv : bv.isEmpty = true
      · rw [if_pos hbv]
        exact containsEntries_refl rest a (fun kv hkv => h kv (List.mem_cons_of_mem _ hkv))
      · rw [if_neg hbv, if_neg hbv, Bool.and_eq_true]
        exact ⟨inner_contains_refl bv hwf,
          containsEntries_refl rest a (fun kv hkv => h kv (List.mem_cons_of_mem _ hkv))⟩
termination_by todo a h => sizeOf todo
decreasing_by
  all_goals simp only [List.cons.sizeOf_spec, Prod.mk.sizeOf_spec,
    PermissionTreeData.node.sizeOf_spec]
  all_goals omega

/-- Node-level reflexivity of the containment loop. -/
theorem inner_contains_refl : ∀ (d : PermissionTreeData), d.wf = true →
    inner_contains d d = true
  | .node es, h => by
    rw [inner_contains]
    rw [wf_node] at h
    apply containsEntries_refl es es
    intro kv hkv
    have hl := lookupKey_of_mem_wf h hkv
    exact ⟨hl, wf_of_lookupKey h hl⟩
termination_by d h => sizeOf d
decreasing_by
  all_goals simp only [List.cons.sizeOf_spec, Prod.mk.sizeOf_spec,
    PermissionTreeData.node.sizeOf_spec]
  all_goals omega

end

/-- C10: for every well-formed tree A (key uniqueness at every node, which
every Python dictionary graph satisfies), A.contains(A) returns true. -/
theorem c10_contains_refl (A : PermissionTree) (h : A.wf = true) : A.contains A = true := by
  rw [contains_def]
  obtain ⟨⟨es⟩⟩ := A
  rw [inner_contains]
  rw [show (PermissionTree.mk (.node es)).wf = wfEntries es from rfl] at h
  apply containsEntries_refl
  intro kv hkv
  have hl := lookupKey_of_mem_wf h hkv
  exact ⟨hl, wf_of_lookupKey h hl⟩

/-- C10, witness at a concrete input. -/
theorem c10_contains_refl_witness :
    (⟨.node [("a", .node [])]⟩ : PermissionTree).wf = true
    ∧ (⟨.node [("a", .node [])]⟩ : PermissionTree).contains ⟨.node [("a", .node [])]⟩ = true := by
  have h : (⟨.node [("a", .node [])]⟩ : PermissionTree).wf = true := by
    simp [PermissionTree.wf, PermissionTreeData.wf, wfEntries, hasKey]
  exact ⟨h, c10_contains_refl _ h⟩

/-!
Claim C9: the traversal rule of intersect, stated through the dictionary
lookups of the result node.
-/

/-- Intersecting anything with the empty node yields the empty node: every
left key is absent from the empty right dictionary and is dropped. -/
theorem intersectEntries_nil_right : ∀ (todo : Entries), intersectEntries [] todo = []
  | [] => by rw [intersectEntries]
  | (k, v) :: rest => by
    rw [intersectEntries]
    split
    · exact intersectEntries_nil_right rest
    · rename_i rv hsome
      cases hsome

/-- Node-level version of `intersectEntries_nil_right`. -/
theorem inner_intersect_empty_right : ∀ (d : PermissionTreeData),
    inner_intersect d (.node []) = .node []
  | .node es => by
    rw [inner_intersect, intersectEntries_nil_right]

/-- Keys absent from the left operand never reach the intersection result. -/
theorem lookup_intersectEntries_left_none : ∀ (todo right : Entries) (k : String),
    lookupKey todo k = none → lookupKey (intersectEntries right todo) k = none
  | [], right, k, _ => by rw [intersectEntries]; rfl
  | (key, lv) :: rest, right, k, h => by
    rw [lookupKey] at h
    by_cases hk : key = k
    · simp [hk] at h
    · simp only [beq_iff_eq, hk, if_false] at h
      rw [intersectEntries]
      split
      · exact lookup_intersectEntries_left_none rest right k h
      · rw [lookupKey]
        simp only [beq_iff_eq, hk, if_false]
        exact lookup_intersectEntries_left_none rest right k h

/-- Keys absent from the right operand are dropped from the intersection. -/
theorem lookup_intersectEntries_right_none : ∀ (todo right : Entries) (k : String),
    lookupKey right k = none → lookupKey (intersectEntries right todo) k = none
  | [], right, k, _ => by rw [intersectEntries]; rfl
  | (key, lv) :: rest, right, k, h => by
    rw [intersectEntries]
    split
    · exact lookup_intersectEntries_right_none rest right k h
    · rename_i rv hsome
      rw [lookupKey]
      have hk : key ≠ k := by
        intro he
        subst he
        rw [h] at hsome
        cases hsome
      simp only [beq_iff_eq, hk, if_false]
      exact lookup_intersectEntries_right_none rest right k h

/-- Value of the intersection at a key present in both operands: the right
subtree when the left value is empty, else the recursive intersection. -/
theorem lookup_intersectEntries_both : ∀ (todo right : Entries) (k : String)
    (lv rv : PermissionTreeData),
    lookupKey todo k = some lv → lookupKey right k = some rv →
    lookupKey (intersectEntries right todo) k =
      some (if lv.isEmpty then rv else inner_intersect lv rv)
  | [], right, k, lv, rv, h, _ => by cases h
  | (key, w) :: rest, right, k, lv, rv, h, hr => by
    rw [lookupKey] at h
    by_cases hk : key = k
    · subst hk
      simp only [beq_self_eq_true, if_true, Option.some.injEq] at h
      subst h
      rw [intersectEntries]
      split
      · rename_i hnone
        rw [hr] at hnone
        cases hnone
      · rename_i rv2 hsome
        rw [hr] at hsome
        injection hsome with he
        subst he
        rw [lookupKey]
        simp
    · simp only [beq_iff_eq, hk, if_false] at h
      rw [intersectEntries]
      split
      · exact lookup_intersectEntries_both rest right k lv rv h hr
      · rw [lookupKey]
        simp only [beq_iff_eq, hk, if_false]
        exact lookup_intersectEntries_both rest right k lv rv h hr

/-- C9: the node set of A.intersect(B) is driven solely by A's keys: a key of
A absent from B is dropped; a key present only in B never appears; a key whose
child in A is the empty node maps in the result to B's entire subtree at that
key; and a key with a non-empty child in A but an empty child in B maps in the
result to an empty subtree. -/
theorem c9_intersect_traversal (A B : PermissionTree) (k : String) :
    (lookupKey B._data.entries k = none →
      lookupKey ((A.intersect B)._data.entries) k = none)
  ∧ (lookupKey A._data.entries k = none →
      lookupKey ((A.intersect B)._data.entries) k = none)
  ∧ (∀ lv rv, lookupKey A._data.entries k = some lv →
      lookupKey B._data.entries k = some rv → lv.isEmpty = true →
      lookupKey ((A.intersect B)._data.entries) k = some rv)
  ∧ (∀ lv rv, lookupKey A._data.entries k = some lv →
      lookupKey B._data.entries k = some rv → lv.isEmpty = false → rv.isEmpty = true →
      lookupKey ((A.intersect B)._data.entries) k = some (.node [])) := by
  obtain ⟨⟨ea⟩⟩ := A
  obtain ⟨⟨eb⟩⟩ := B
  have hres : ((PermissionTree.mk (.node ea)).intersect ⟨.node eb⟩)._data.entries =
      intersectEntries eb ea := by
    show (inner_intersect (.node ea) (.node eb)).entries = intersectEntries eb ea
    rw [inner_intersect, PermissionTreeData.entries]
  refine ⟨?_, ?_, ?_, ?_⟩
  · intro h
    rw [hres]
    exact lookup_intersectEntries_right_none ea eb k h
  · intro h
    rw [hres]
    exact lookup_intersectEntries_left_none ea eb k h
  · intro lv rv hA hB hEmpty
    rw [hres, lookup_intersectEntries_both ea eb k lv rv hA hB, if_pos hEmpty]
  · intro lv rv hA hB hNonempty hEmpty
    rw [hres, lookup_intersectEntries_both ea eb k lv rv hA hB, if_neg (by rw [hNonempty]; exact Bool.false_ne_true)]
    rw [isEmpty_iff.1 hEmpty, inner_intersect_empty_right]

/-- C9, witness: a pair of concrete trees exhibiting all four traversal rules
at four different keys. -/
theorem c9_intersect_traversal_witness :
    ((lookupKey [("a", PermissionTreeData.node [("e", .node [])]),
        ("b", PermissionTreeData.node []), ("z", PermissionTreeData.node [])] "d" = none)
      ∧ lookupKey ((PermissionTree.mk (.node [("a", .node []),
          ("b", .node [("c", .node [])]), ("d", .node [])])).intersect
            ⟨.node [("a", .node [("e", .node [])]), ("b", .node []),
              ("z", .node [])]⟩)._data.entries "d" = none)
    ∧ ((lookupKey [("a", PermissionTreeData.node []),
        ("b", PermissionTreeData.node [("c", .node [])]),
        ("d", PermissionTreeData.node [])] "z" = none)
      ∧ lookupKey ((PermissionTree.mk (.node [("a", .node []),
          ("b", .node [("c", .node [])]), ("d", .node [])])).intersect
            ⟨.node [("a", .node [("e", .node [])]), ("b", .node []),
              ("z", .node [])]⟩)._data.entries "z" = none)
    ∧ (lookupKey ((PermissionTree.mk (.node [("a", .node []),
          ("b", .node [("c", .node [])]), ("d", .node [])])).intersect
            ⟨.node [("a", .node [("e", .node [])]), ("b", .node []),
              ("z", .node [])]⟩)._data.entries "a" = some (.node [("e", .node [])]))
    ∧ (lookupKey ((PermissionTree.mk (.node [("a", .node []),
          ("b", .node [("c", .node [])]), ("d", .node [])])).intersect
            ⟨.node [("a", .node [("e", .node [])]), ("b", .node []),
              ("z", .node [])]⟩)._data.entries "b" = some (.node [])) := by
  refine ⟨⟨rfl, ?_⟩, ⟨rfl, ?_⟩, ?_, ?_⟩
  · exact (c9_intersect_traversal _ _ "d").1 rfl
  · exact (c9_intersect_traversal _ _ "z").2.1 rfl
  · exact (c9_intersect_traversal _ _ "a").2.2.1 (.node []) (.node [("e", .node [])]) rfl rfl rfl
  · exact (c9_intersect_traversal _ _ "b").2.2.2 (.node [("c", .node [])]) (.node [])
      rfl rfl rfl rfl

/-!
Claim C7: union commutativity at the level of check.  The development first
characterizes the dictionary lookups of `inner_union` through its two passes.
-/

theorem union_def (A B : PermissionTree) :
    (A.union B)._data = inner_union A._data B._data := rfl

theorem hasKey_eq_isSome : ∀ (es : Entries) (k : String),
    hasKey es k = (lookupKey es k).isSome
  | [], k => rfl
  | (key, v) :: rest, k => by
    rw [hasKey, lookupKey]
    by_cases hk : key = k
    · simp [hk]
    · simp [hk, hasKey_eq_isSome rest k]

theorem isEmptyAt_of_none {es : Entries} {k : String} (h : lookupKey es k = none) :
    isEmptyAt es k = false := by
  simp only [isEmptyAt, h]

theorem isEmptyAt_of_some {es : Entries} {k : String} {d : PermissionTreeData}
    (h : lookupKey es k = some d) : isEmptyAt es k = d.isEmpty := by
  simp only [isEmptyAt, h]

theorem key_ne_of_hasKey_false {es : Entries} {k k' : String} {v : PermissionTreeData}
    (h : hasKey es k = false) (hm : (k', v) ∈ es) : k' ≠ k := by
  intro he
  subst he
  rw [hasKey_of_mem hm] at h
  cases h

theorem isEmptyAt_eq {es es2 : Entries} {k : String}
    (h : lookupKey es k = lookupKey es2 k) : isEmptyAt es k = isEmptyAt es2 k := by
  simp only [isEmptyAt, h]

/-- The value the first union pass stores for one left entry. -/
def unionPass1Value (right : Entries) (k : String) (lv : PermissionTreeData) :
    PermissionTreeData :=
  match lookupKey right k with
  | none => lv
  | some rv => if rv.isEmpty then .node [] else inner_union lv rv

/-- Structure of the first union pass: over distinct keys that are all fresh
for the accumulated result, it appends one processed entry per left entry. -/
theorem unionPass1_eq : ∀ (todo result right : Entries),
    wfEntries todo = true →
    (∀ kv ∈ todo, lookupKey result kv.1 = none) →
    unionPass1 right todo result =
      result ++ todo.map (fun kv => (kv.1, unionPass1Value right kv.1 kv.2))
  | [], result, right, _, _ => by
    rw [unionPass1]
    simp
  | (k, lv) :: rest, result, right, hwf, hfresh => by
    rw [wfEntries_cons] at hwf
    have hfk : lookupKey result k = none := hfresh (k, lv) (List.mem_cons_self _ _)
    rw [unionPass1, if_neg (by rw [isEmptyAt_of_none hfk]; exact Bool.false_ne_true)]
    have hfresh2 : ∀ X, ∀ kv ∈ rest, lookupKey (setKey result k X) kv.1 = none := by
      intro X kv hkv
      obtain ⟨k2, v2⟩ := kv
      rw [lookupKey_setKey_ne result X (key_ne_of_hasKey_false hwf.1 hkv)]
      exact hfresh (k2, v2) (List.mem_cons_of_mem _ hkv)
    split
    · rename_i hnone
      rw [unionPass1_eq rest (setKey result k lv) right hwf.2.2 (hfresh2 lv)]
      rw [setKey_of_lookupKey_none hfk]
      simp only [List.append_assoc, List.singleton_append, List.map_cons, List.cons_append,
        List.nil_append, unionPass1Value, hnone]
    · rename_i rv hsome
      by_cases hrv : rv.isEmpty = true
      · rw [if_pos hrv]
        rw [unionPass1_eq rest (setKey result k (.node [])) right hwf.2.2 (hfresh2 (.node []))]
        rw [setKey_of_lookupKey_none hfk]
        simp only [List.append_assoc, List.singleton_append, List.map_cons, List.cons_append,
          List.nil_append, unionPass1Value, hsome, if_pos hrv]
      · rw [if_neg hrv]
        rw [unionPass1_eq rest (setKey result k (inner_union lv rv)) right hwf.2.2
          (hfresh2 (inner_union lv rv))]
        rw [setKey_of_lookupKey_none hfk]
        simp only [List.append_assoc, List.singleton_append, List.map_cons, List.cons_append,
          List.nil_append, unionPass1Value, hsome, if_neg hrv]

/-- Lookup through a key-preserving value map over an entry list. -/
theorem lookupKey_map_value (g : String → PermissionTreeData → PermissionTreeData) :
    ∀ (es : Entries) (k : String),
    lookupKey (es.map (fun kv => (kv.1, g kv.1 kv.2))) k = (lookupKey es k).map (g k)
  | [], k => rfl
  | (key, v) :: rest, k => by
    rw [List.map_cons, lookupKey, lookupKey]
    by_cases hk : key = k
    · subst hk
      simp
    · simp only [beq_iff_eq, hk, if_false]
      exact lookupKey_map_value g rest k

/-- The second union pass leaves keys it never iterates untouched. -/
theorem lookup_unionPass2_not_mem : ∀ (todo left result : Entries) (k : String),
    hasKey todo k = false →
    lookupKey (unionPass2 left todo result) k = lookupKey result k
  | [], left, result, k, _ => by rw [unionPass2]
  | (key, rv) :: rest, left, result, k, h => by
    rw [hasKey, Bool.or_eq_false_iff] at h
    have hk : key ≠ k := by simpa using h.1
    have hne : k ≠ key := fun he => hk he.symm
    rw [unionPass2]
    split
    · exact lookup_unionPass2_not_mem rest left result k h.2
    · split
      · rw [lookup_unionPass2_not_mem rest left _ k h.2, lookupKey_setKey_ne result rv hne]
      · rename_i lv hsome
        by_cases hlv : lv.isEmpty = true
        · rw [if_pos hlv, lookup_unionPass2_not_mem rest left _ k h.2,
            lookupKey_setKey_ne result (.node []) hne]
        · rw [if_neg hlv, lookup_unionPass2_not_mem rest left _ k h.2,
            lookupKey_setKey_ne result (inner_union lv rv) hne]

/-- The value the second union pass stores for a key present in the iterated
right entries, as a function of the accumulated result and the left operand. -/
theorem lookup_unionPass2_mem : ∀ (todo left result : Entries) (k : String)
    (rv : PermissionTreeData),
    wfEntries todo = true → lookupKey todo k = some rv →
    lookupKey (unionPass2 left todo result) k =
      (if isEmptyAt result k then lookupKey result k
       else match lookupKey left k with
            | none => some rv
            | some lv => if lv.isEmpty then some (.node []) else some (inner_union lv rv))
  | [], left, result, k, rv, _, h => by cases h
  | (key, w) :: rest, left, result, k, rv, hwf, h => by
    rw [wfEntries_cons] at hwf
    rw [lookupKey] at h
    by_cases hk : key = k
    · subst hk
      simp only [beq_self_eq_true, if_true, Option.some.injEq] at h
      subst h
      have hrest : hasKey rest key = false := hwf.1
      rw [unionPass2]
      by_cases hemp : isEmptyAt result key = true
      · rw [if_pos hemp, if_pos hemp]
        exact lookup_unionPass2_not_mem rest left result key hrest
      · rw [if_neg hemp, if_neg hemp]
        split
        · rename_i hnone
          rw [lookup_unionPass2_not_mem rest left _ key hrest, lookupKey_setKey_self, hnone]
        · rename_i lv hsome
          by_cases hlv : lv.isEmpty = true
          · rw [if_pos hlv, lookup_unionPass2_not_mem rest left _ key hrest,
              lookupKey_setKey_self]
            simp [hsome, hlv]
          · rw [if_neg hlv, lookup_unionPass2_not_mem rest left _ key hrest,
              lookupKey_setKey_self]
            simp [hsome, hlv]
    · simp only [beq_iff_eq, hk, if_false] at h
      have hne : k ≠ key := fun he => hk he.symm
      rw [unionPass2]
      split
      · exact lookup_unionPass2_mem rest left result k rv hwf.2.2 h
      · split
        · rw [lookup_unionPass2_mem rest left _ k rv hwf.2.2 h,
            isEmptyAt_eq (lookupKey_setKey_ne result _ hne), lookupKey_setKey_ne result _ hne]
        · rename_i lv hsome
          by_cases hlv : lv.isEmpty = true
          · rw [if_pos hlv, lookup_unionPass2_mem rest left _ k rv hwf.2.2 h,
              isEmptyAt_eq (lookupKey_setKey_ne result _ hne), lookupKey_setKey_ne result _ hne]
          · rw [if_neg hlv, lookup_unionPass2_mem rest left _ k rv hwf.2.2 h,
              isEmptyAt_eq (lookupKey_setKey_ne result _ hne), lookupKey_setKey_ne result _ hne]

theorem lookupKey_cons_self (k : String) (v : PermissionTreeData) (rest : Entries) :
    lookupKey ((k, v) :: rest) k = some v := by
  rw [lookupKey]
  simp

theorem lookup_some_ne_nil {es : Entries} {k : String} {v : PermissionTreeData}
    (h : lookupKey es k = some v) : es ≠ [] := by
  intro he
  subst he
  cases h

/-- Lookup into the accumulated first pass over the whole left entry list. -/
theorem lookup_pass1out (l r : Entries) (hl : wfEntries l = true) (k : String) :
    lookupKey (unionPass1 r l []) k = (lookupKey l k).map (unionPass1Value r k) := by
  rw [unionPass1_eq l [] r hl (fun kv _ => rfl)]
  rw [List.nil_append]
  exact lookupKey_map_value (unionPass1Value r) l k

/-- The second pass with an empty left operand appends the fresh right
entries verbatim. -/
theorem unionPass2_nil_left : ∀ (todo result : Entries),
    wfEntries todo = true →
    (∀ kv ∈ todo, lookupKey result kv.1 = none) →
    unionPass2 [] todo result = result ++ todo
  | [], result, _, _ => by
    rw [unionPass2]
    simp
  | (k, rv) :: rest, result, hwf, hfresh => by
    rw [wfEntries_cons] at hwf
    have hfk : lookupKey result k = none := hfresh (k, rv) (List.mem_cons_self _ _)
    rw [unionPass2, if_neg (by rw [isEmptyAt_of_none hfk]; exact Bool.false_ne_true)]
    split
    · rw [unionPass2_nil_left rest (setKey result k rv) hwf.2.2 (by
        intro kv hkv
        obtain ⟨k2, v2⟩ := kv
        rw [lookupKey_setKey_ne result rv (key_ne_of_hasKey_false hwf.1 hkv)]
        exact hfresh (k2, v2) (List.mem_cons_of_mem _ hkv))]
      rw [setKey_of_lookupKey_none hfk]
      simp
    · rename_i lv hsome
      cases hsome

/-- Union with the empty node on the left copies the right dictionary. -/
theorem inner_union_nil_left (es : Entries) (h : wfEntries es = true) :
    inner_union (.node []) (.node es) = .node es := by
  rw [inner_union, unionPass1, unionPass2_nil_left es [] h (fun kv _ => rfl)]
  rw [List.nil_append]

/-- A key of the right operand always survives into the union result. -/
theorem lookup_union_right_isSome (l r : Entries) (hl : wfEntries l = true)
    (hr : wfEntries r = true) {k : String} {rv : PermissionTreeData}
    (hkr : lookupKey r k = some rv) :
    (lookupKey (unionPass2 l r (unionPass1 r l [])) k).isSome = true := by
  rw [lookup_unionPass2_mem r l _ k rv hr hkr]
  by_cases hemp : isEmptyAt (unionPass1 r l []) k = true
  · rw [if_pos hemp]
    rw [isEmptyAt] at hemp
    cases hlk : lookupKey (unionPass1 r l []) k with
    | none => rw [hlk] at hemp; cases hemp
    | some d => rfl
  · rw [if_neg hemp]
    cases hkl : lookupKey l k with
    | none => simp
    | some lv =>
      by_cases hlv : lv.isEmpty = true
      · simp [hlv]
      · simp [hlv]

/-- A key of the left operand always survives into the union result. -/
theorem lookup_union_left_isSome (l r : Entries) (hl : wfEntries l = true)
    (hr : wfEntries r = true) {k : String} {lv : PermissionTreeData}
    (hkl : lookupKey l k = some lv) :
    (lookupKey (unionPass2 l r (unionPass1 r l [])) k).isSome = true := by
  cases hkr : lookupKey r k with
  | none =>
    rw [lookup_unionPass2_not_mem r l _ k (by rw [hasKey_eq_isSome, hkr]; rfl)]
    rw [lookup_pass1out l r hl k, hkl]
    rfl
  | some rv => exact lookup_union_right_isSome l r hl hr hkr

/-- Emptiness of the union root: empty exactly when both roots are empty. -/
theorem inner_union_isEmpty (l r : Entries) (hl : wfEntries l = true)
    (hr : wfEntries r = true) :
    (inner_union (.node l) (.node r)).isEmpty = (l.isEmpty && r.isEmpty) := by
  rw [inner_union]
  cases l with
  | cons e l2 =>
    obtain ⟨k0, v0⟩ := e
    have h := lookup_union_left_isSome ((k0, v0) :: l2) r hl hr (lookupKey_cons_self k0 v0 l2)
    cases hes : unionPass2 ((k0, v0) :: l2) r (unionPass1 r ((k0, v0) :: l2) []) with
    | nil => rw [hes] at h; cases h
    | cons e2 rest2 => simp [PermissionTreeData.isEmpty]
  | nil =>
    cases r with
    | cons e r2 =>
      obtain ⟨k0, v0⟩ := e
      have h := lookup_union_right_isSome [] ((k0, v0) :: r2) hl hr
        (lookupKey_cons_self k0 v0 r2)
      cases hes : unionPass2 [] ((k0, v0) :: r2) (unionPass1 ((k0, v0) :: r2) [] []) with
      | nil => rw [hes] at h; cases h
      | cons e2 rest2 => simp [PermissionTreeData.isEmpty]
    | nil =>
      rw [unionPass1, unionPass2]
      rfl

/-- Dictionary-lookup characterization of `inner_union` on well-formed
operands: keys present on one side are copied, keys present on both sides
become the empty wildcard node as soon as either side's value is empty and
otherwise the recursive union. -/
theorem lookup_inner_union (l r : Entries) (hl : wfEntries l = true)
    (hr : wfEntries r = true) (k : String) :
    lookupKey (inner_union (.node l) (.node r)).entries k =
      match lookupKey l k, lookupKey r k with
      | none, none => none
      | some lv, none => some lv
      | none, some rv => some rv
      | some lv, some rv =>
          some (if lv.isEmpty || rv.isEmpty then .node [] else inner_union lv rv) := by
  have hent : (inner_union (.node l) (.node r)).entries =
      unionPass2 l r (unionPass1 r l []) := by
    rw [inner_union, PermissionTreeData.entries]
  rw [hent]
  cases hkr : lookupKey r k with
  | none =>
    rw [lookup_unionPass2_not_mem r l _ k (by rw [hasKey_eq_isSome, hkr]; rfl)]
    rw [lookup_pass1out l r hl k]
    cases hkl : lookupKey l k with
    | none => simp
    | some lv => simp [unionPass1Value, hkr]
  | some rv =>
    rw [lookup_unionPass2_mem r l _ k rv hr hkr]
    cases hkl : lookupKey l k with
    | none =>
      have h1 : lookupKey (unionPass1 r l []) k = none := by
        rw [lookup_pass1out l r hl k, hkl]
        rfl
      rw [isEmptyAt_of_none h1, if_neg Bool.false_ne_true]
    | some lv =>
      have h1 : lookupKey (unionPass1 r l []) k = some (unionPass1Value r k lv) := by
        rw [lookup_pass1out l r hl k, hkl]
        rfl
      rw [isEmptyAt_of_some h1]
      by_cases hrv : rv.isEmpty = true
      · have hv : unionPass1Value r k lv = .node [] := by
          simp [unionPass1Value, hkr, hrv]
        rw [hv]
        rw [if_pos (show (PermissionTreeData.node []).isEmpty = true from rfl)]
        rw [h1, hv]
        simp [hrv]
      · have hv : unionPass1Value r k lv = inner_union lv rv := by
          simp [unionPass1Value, hkr, hrv]
        have hrv2 : rv.isEmpty = false := Bool.eq_false_iff.2 hrv
        by_cases hlv : lv.isEmpty = true
        · obtain ⟨erv⟩ := rv
          have hv2 : unionPass1Value r k lv = .node erv := by
            rw [hv, isEmpty_iff.1 hlv, inner_union_nil_left erv (wf_node ▸ wf_of_lookupKey hr hkr)]
          rw [hv2]
          rw [if_neg (by rw [hrv2]; exact Bool.false_ne_true)]
          simp [hlv]
        · obtain ⟨elv⟩ := lv
          obtain ⟨erv⟩ := rv
          have hlv2 : (PermissionTreeData.node elv).isEmpty = false := Bool.eq_false_iff.2 hlv
          have hwlv : wfEntries elv = true := wf_node ▸ wf_of_lookupKey hl hkl
          have hwrv : wfEntries erv = true := wf_node ▸ wf_of_lookupKey hr hkr
          have hne : (inner_union (.node elv) (.node erv)).isEmpty = false := by
            rw [inner_union_isEmpty elv erv hwlv hwrv]
            cases elv with
            | nil => exact absurd rfl hlv
            | cons x xs => rfl
          rw [hv]
          rw [if_neg (by rw [hne]; exact Bool.false_ne_true)]
          simp [hlv2, hrv2]

/-- Check-level commutativity of union, by induction on the segment walk. -/
theorem checkData_union_comm : ∀ (segs : List String) (l r : Entries),
    wfEntries l = true → wfEntries r = true →
    checkData (inner_union (.node l) (.node r)) segs =
      checkData (inner_union (.node r) (.node l)) segs := by
  intro segs
  induction segs with
  | nil =>
    intro l r hl hr
    rw [checkData, checkData, inner_union_isEmpty l r hl hr, inner_union_isEmpty r l hr hl,
      Bool.and_comm]
  | cons s rest ih =>
    intro l r hl hr
    rw [checkData, checkData]
    rw [lookup_inner_union l r hl hr s, lookup_inner_union r l hr hl s]
    cases hkl : lookupKey l s with
    | none =>
      cases hkr : lookupKey r s with
      | none =>
        simp only [hkl, hkr]
        rw [inner_union_isEmpty l r hl hr, inner_union_isEmpty r l hr hl, Bool.and_comm]
      | some rv => simp only [hkl, hkr]
    | some lv =>
      cases hkr : lookupKey r s with
      | none => simp only [hkl, hkr]
      | some rv =>
        simp only [hkl, hkr]
        rw [Bool.or_comm]
        by_cases hc : (rv.isEmpty || lv.isEmpty) = true
        · rw [if_pos hc, if_pos hc]
        · rw [if_neg hc, if_neg hc]
          obtain ⟨elv⟩ := lv
          obtain ⟨erv⟩ := rv
          exact ih elv erv (wf_node ▸ wf_of_lookupKey hl hkl) (wf_node ▸ wf_of_lookupKey hr hkr)

/-- C7: for every pair of well-formed trees A and B and every dotted-path
string P, A.union(B).check(P) equals B.union(A).check(P). -/
theorem c7_union_commutative (A B : PermissionTree) (hA : A.wf = true)
    (hB : B.wf = true) (P : String) :
    (A.union B).check P = (B.union A).check P := by
  obtain ⟨⟨ea⟩⟩ := A
  obtain ⟨⟨eb⟩⟩ := B
  have hA2 : wfEntries ea = true := by rw [← wf_node]; exact hA
  have hB2 : wfEntries eb = true := by rw [← wf_node]; exact hB
  rw [check_def, check_def, union_def, union_def]
  exact checkData_union_comm (P.splitOn ".") ea eb hA2 hB2

/-- C7, witness at a concrete input. -/
theorem c7_union_commutative_witness :
    ((⟨.node [("a", .node [("b", .node [])])]⟩ : PermissionTree).wf = true
      ∧ (⟨.node [("a", .node [])]⟩ : PermissionTree).wf = true)
    ∧ ((⟨.node [("a", .node [("b", .node [])])]⟩ : PermissionTree).union
          ⟨.node [("a", .node [])]⟩).check "a.c"
        = ((⟨.node [("a", .node [])]⟩ : PermissionTree).union
          ⟨.node [("a", .node [("b", .node [])])]⟩).check "a.c" := by
  have h1 : (⟨.node [("a", .node [("b", .node [])])]⟩ : PermissionTree).wf = true := by
    simp [PermissionTree.wf, PermissionTreeData.wf, wfEntries, hasKey]
  have h2 : (⟨.node [("a", .node [])]⟩ : PermissionTree).wf = true := by
    simp [PermissionTree.wf, PermissionTreeData.wf, wfEntries, hasKey]
  exact ⟨⟨h1, h2⟩, c7_union_commutative _ _ h1 h2 "a.c"⟩

/-!
Claim C2: the revoke postcondition.  A successful revoke that leaves the
deleted key's node empty turns that node into a wildcard, so check(P) can be
true again afterwards; what does hold is that after a successful revoke,
check agrees on P and on every path beneath P.
-/

/-- Deleting a key from a node with unique keys removes it for lookup. -/
theorem lookupKey_delKey_self : ∀ {es : Entries} {k : String},
    wfEntries es = true → lookupKey (delKey es k) k = none
  | [], k, _ => rfl
  | (k2, v) :: rest, k, hwf => by
    rw [wfEntries_cons] at hwf
    rw [delKey]
    by_cases hk : k2 = k
    · subst hk
      rw [if_pos (show (k2 == k2) = true from by simp)]
      exact hasKey_false_lookupKey hwf.1
    · rw [if_neg (by simpa using hk), lookupKey]
      simp only [beq_iff_eq, hk, if_false]
      exact lookupKey_delKey_self hwf.2.2

/-- After a successful revoke the walk of the revoked path stops at the node
the key was deleted from, so extending the path further cannot change the
check result. -/
theorem revoke_check_ext : ∀ (segs : List String) (lastSeg : String)
    (d d' : PermissionTreeData), d.wf = true →
    segs.getLast? = some lastSeg →
    revokeGo lastSeg d segs = (true, d') →
    ∀ ext, checkData d' (segs ++ ext) = checkData d' segs
  | [], lastSeg, d, d', _, hlast, _, ext => by cases hlast
  | s :: rest, lastSeg, .node es, d', hwf, hlast, hrev, ext => by
    rw [revokeGo] at hrev
    split at hrev
    · cases hrev
    · rename_i child hchild
      rw [wf_node] at hwf
      by_cases hs : (s == lastSeg) = true
      · rw [if_pos hs] at hrev
        injection hrev with h1 h2
        subst h2
        have hdel : lookupKey (delKey es s) s = none := lookupKey_delKey_self hwf
        rw [List.cons_append, checkData, checkData]
        rw [show (PermissionTreeData.node (delKey es s)).entries = delKey es s from rfl, hdel]
      · rw [if_neg hs] at hrev
        injection hrev with h1 h2
        subst h2
        have hrest : rest ≠ [] := by
          intro he
          subst he
          rw [show ([s] : List String).getLast? = some s from rfl] at hlast
          injection hlast with he2
          rw [he2] at hs
          simp at hs
        have hlast2 : rest.getLast? = some lastSeg := by
          cases rest with
          | nil => exact absurd rfl hrest
          | cons r2 rs => rw [List.getLast?_cons_cons] at hlast; exact hlast
        have hrev2 : revokeGo lastSeg child rest =
            (true, (revokeGo lastSeg child rest).2) := by
          rw [show (revokeGo lastSeg child rest) =
            ((revokeGo lastSeg child rest).1, (revokeGo lastSeg child rest).2) from rfl] at h1 ⊢
          rw [h1]
        have ih := revoke_check_ext rest lastSeg child (revokeGo lastSeg child rest).2
          (wf_of_lookupKey hwf hchild) hlast2 hrev2 ext
        rw [List.cons_append, checkData, checkData]
        rw [show (PermissionTreeData.node (setKey es s (revokeGo lastSeg child rest).2)).entries
          = setKey es s (revokeGo lastSeg child rest).2 from rfl]
        rw [lookupKey_setKey_self]
        exact ih

/-- C2 as amended: for every well-formed tree T and dotted-path strings P and
Q with Q strictly beneath P (its segments extend P's segments), if
T.revoke(P) returns true then afterwards check(Q) equals check(P): in
particular every path beneath P is denied whenever P itself is denied, and
when the deletion emptied the node it deleted from, P and everything beneath
it are re-granted together by the resulting wildcard. -/
theorem c2_revoke_beneath (T : PermissionTree) (P Q : String) (ext : List String)
    (hwf : T.wf = true) (hrev : (T.revoke P).1 = true)
    (hsplit : Q.splitOn "." = P.splitOn "." ++ ext) :
    (T.revoke P).2.check Q = (T.revoke P).2.check P := by
  rw [revoke_def] at hrev ⊢
  rw [check_def, check_def]
  rw [show (⟨(revokeGo ((P.splitOn ".").getLastD "") T._data (P.splitOn ".")).2⟩ :
    PermissionTree)._data = (revokeGo ((P.splitOn ".").getLastD "") T._data
      (P.splitOn ".")).2 from rfl]
  rw [hsplit]
  have hne : P.splitOn "." ≠ [] := splitOn_dot_ne_nil P
  have hlast : (P.splitOn ".").getLast? = some ((P.splitOn ".").getLastD "") := by
    rw [List.getLastD_eq_getLast?]
    cases hx : (P.splitOn ".").getLast? with
    | none => exact absurd (List.getLast?_eq_none_iff.1 hx) hne
    | some y => rfl
  have hrev2 : revokeGo ((P.splitOn ".").getLastD "") T._data (P.splitOn ".") =
      (true, (revokeGo ((P.splitOn ".").getLastD "") T._data (P.splitOn ".")).2) := by
    rw [show (revokeGo ((P.splitOn ".").getLastD "") T._data (P.splitOn ".")) =
      ((revokeGo ((P.splitOn ".").getLastD "") T._data (P.splitOn ".")).1,
       (revokeGo ((P.splitOn ".").getLastD "") T._data (P.splitOn ".")).2) from rfl] at hrev ⊢
    rw [show ((revokeGo ((P.splitOn ".").getLastD "") T._data (P.splitOn ".")).1,
       (revokeGo ((P.splitOn ".").getLastD "") T._data (P.splitOn ".")).2).1 =
       (revokeGo ((P.splitOn ".").getLastD "") T._data (P.splitOn ".")).1 from rfl] at hrev
    rw [hrev]
  exact revoke_check_ext (P.splitOn ".") ((P.splitOn ".").getLastD "") T._data
    (revokeGo ((P.splitOn ".").getLastD "") T._data (P.splitOn ".")).2 hwf hlast hrev2 ext

/-- C2, counterexample to the claim as stated: revoking "a" from the tree
granting exactly "a" returns true, yet check("a") is true afterwards - the
deletion left the root empty, and an empty root grants everything. -/
theorem c2_revoke_counterexample :
    ((⟨.node [("a", .node [])]⟩ : PermissionTree).revoke "a").1 = true
    ∧ ((⟨.node [("a", .node [])]⟩ : PermissionTree).revoke "a").2.check "a" = true := by
  constructor
  · rw [revoke_def, splitOn_dot]
    decide
  · rw [revoke_def, check_def, splitOn_dot]
    decide

/-- C2, witness for the amended theorem at a concrete input. -/
theorem c2_revoke_beneath_witness :
    ((⟨.node [("a", .node []), ("b", .node [])]⟩ : PermissionTree).wf = true
      ∧ ((⟨.node [("a", .node []), ("b", .node [])]⟩ : PermissionTree).revoke "a").1 = true
      ∧ "a.x".splitOn "." = "a".splitOn "." ++ [String.mk ['x']])
    ∧ ((⟨.node [("a", .node []), ("b", .node [])]⟩ : PermissionTree).revoke
          "a").2.check "a.x"
        = ((⟨.node [("a", .node []), ("b", .node [])]⟩ : PermissionTree).revoke
          "a").2.check "a" := by
  have h1 : (⟨.node [("a", .node []), ("b", .node [])]⟩ : PermissionTree).wf = true := by
    simp [PermissionTree.wf, PermissionTreeData.wf, wfEntries, hasKey]
  have h2 : ((⟨.node [("a", .node []), ("b", .node [])]⟩ : PermissionTree).revoke "a").1
      = true := by
    rw [revoke_def, splitOn_dot]
    decide
  have h3 : "a.x".splitOn "." = "a".splitOn "." ++ [String.mk ['x']] := by
    rw [splitOn_dot, splitOn_dot]
    decide
  exact ⟨⟨h1, h2, h3⟩, c2_revoke_beneath _ "a" "a.x" [String.mk ['x']] h1 h2 h3⟩

/-!
Claim C6: the round trip through to_strings and grant_from_string.  The
development characterizes to_strings through the root-to-leaf relative paths
(`leafPaths`), shows that granting those paths into a fresh tree rebuilds the
identical tree, and transports the result through the string bridge.
-/

mutual

/-- Python `inner_to_strings` on a node emits exactly one dot-joined string per
root-to-leaf path below it, each prefixed by the accumulated segments. -/
theorem toStringsGo_eq : ∀ (d : PermissionTreeData) (segments : List String),
    segments ≠ [] →
    toStringsGo d segments =
      (leafPaths d).map (fun p => String.intercalate "." (segments ++ p))
  | .node [], segments, hne => by
    rw [toStringsGo, leafPaths, toStringsEntries]
    rw [if_pos (by cases segments with
      | nil => exact absurd rfl hne
      | cons s rest => rfl)]
    simp
  | .node ((k, v) :: es), segments, hne => by
    rw [toStringsGo, leafPaths]
    rw [if_neg (by simp [PermissionTreeData.isEmpty])]
    rw [List.nil_append]
    exact toStringsEntries_eq ((k, v) :: es) segments
termination_by d segments hne => sizeOf d
decreasing_by
  all_goals simp only [PermissionTreeData.node.sizeOf_spec]
  all_goals omega

/-- Entry-list version of `toStringsGo_eq`. -/
theorem toStringsEntries_eq : ∀ (es : Entries) (segments : List String),
    toStringsEntries es segments =
      (leafPathsEntries es).map (fun p => String.intercalate "." (segments ++ p))
  | [], segments => by
    rw [toStringsEntries, leafPathsEntries]
    rfl
  | (k, v) :: rest, segments => by
    rw [toStringsEntries, leafPathsEntries, List.map_append, List.map_map]
    rw [toStringsGo_eq v (segments ++ [k]) (by simp)]
    rw [toStringsEntries_eq rest segments]
    congr 1
    apply List.map_congr_left
    intro p hp
    simp [Function.comp, List.append_assoc]
termination_by es segments => sizeOf es
decreasing_by
  all_goals simp only [PermissionTreeData.node.sizeOf_spec, List.cons.sizeOf_spec,
    Prod.mk.sizeOf_spec]
  all_goals omega

end

/-- Python `to_strings` emits one dot-joined string per root-to-leaf path. -/
theorem to_strings_eq (es : Entries) :
    (PermissionTree.mk (.node es)).to_strings =
      (leafPathsEntries es).map (fun p => String.intercalate "." p) := by
  cases es with
  | nil =>
    rw [show (PermissionTree.mk (.node [])).to_strings = toStringsGo (.node []) [] from rfl]
    rw [toStringsGo, leafPathsEntries, toStringsEntries]
    rfl
  | cons e rest =>
    obtain ⟨k, v⟩ := e
    rw [show (PermissionTree.mk (.node ((k, v) :: rest))).to_strings =
      toStringsGo (.node ((k, v) :: rest)) [] from rfl]
    rw [toStringsGo, if_neg (by simp [PermissionTreeData.isEmpty]), List.nil_append]
    rw [toStringsEntries_eq]
    apply List.map_congr_left
    intro p hp
    rw [List.nil_append]

/-- Every tree has at least one leaf path. -/
theorem leafPaths_ne_nil : ∀ (d : PermissionTreeData), leafPaths d ≠ []
  | .node [] => by rw [leafPaths]; simp
  | .node ((k, v) :: es) => by
    rw [leafPaths, leafPathsEntries]
    intro h
    rcases List.append_eq_nil.1 h with ⟨h1, _⟩
    exact leafPaths_ne_nil v (List.map_eq_nil.1 h1)
termination_by d => sizeOf d
decreasing_by
  all_goals simp only [PermissionTreeData.node.sizeOf_spec, List.cons.sizeOf_spec,
    Prod.mk.sizeOf_spec]
  all_goals omega

/-- Leaf paths contributed by an entry list are never the empty path. -/
theorem leafPathsEntries_ne_nil_mem : ∀ (es : Entries) (p : List String),
    p ∈ leafPathsEntries es → p ≠ []
  | [], p, hp => by rw [leafPathsEntries] at hp; cases hp
  | (k, v) :: rest, p, hp => by
    rw [leafPathsEntries] at hp
    rcases List.mem_append.1 hp with h1 | h2
    · obtain ⟨q, _, rfl⟩ := List.mem_map.1 h1
      simp
    · exact leafPathsEntries_ne_nil_mem rest p h2

mutual

/-- Labels along leaf paths of a dot-free tree contain no dot. -/
theorem leafPaths_noDot : ∀ (d : PermissionTreeData), noDotData d = true →
    ∀ p ∈ leafPaths d, ∀ s ∈ p, ('.' : Char) ∉ s.data
  | .node [], _, p, hp, s, hs => by
    rw [leafPaths] at hp
    simp at hp
    subst hp
    cases hs
  | .node ((k, v) :: es), hdot, p, hp, s, hs => by
    rw [leafPaths] at hp
    rw [noDotData] at hdot
    exact leafPathsEntries_noDot ((k, v) :: es) hdot p hp s hs
termination_by d hdot p hp s hs => sizeOf d
decreasing_by
  all_goals simp only [PermissionTreeData.node.sizeOf_spec]
  all_goals omega

/-- Entry-list version of `leafPaths_noDot`. -/
theorem leafPathsEntries_noDot : ∀ (es : Entries), noDotEntries es = true →
    ∀ p ∈ leafPathsEntries es, ∀ s ∈ p, ('.' : Char) ∉ s.data
  | [], _, p, hp, s, hs => by
    rw [leafPathsEntries] at hp
    cases hp
  | (k, v) :: rest, hdot, p, hp, s, hs => by
    rw [leafPathsEntries] at hp
    rw [noDotEntries] at hdot
    simp only [Bool.and_eq_true, Bool.not_eq_true'] at hdot
    rcases List.mem_append.1 hp with h1 | h2
    · obtain ⟨q, hq, rfl⟩ := List.mem_map.1 h1
      rcases List.mem_cons.1 hs with hs1 | hs2
      · subst hs1
        simpa using hdot.1.1
      · exact leafPaths_noDot v hdot.1.2 q hq s hs2
    · exact leafPathsEntries_noDot rest hdot.2 p h2 s hs
termination_by es hdot p hp s hs => sizeOf es
decreasing_by
  all_goals simp only [PermissionTreeData.node.sizeOf_spec, List.cons.sizeOf_spec,
    Prod.mk.sizeOf_spec]
  all_goals omega

end

/-- Folding over paths that all start with the same key: the key is assigned
once and all the relative paths are granted inside its child. -/
theorem foldl_grantData_group : ∀ (paths : List (List String)) (es0 : Entries) (k : String),
    paths ≠ [] →
    List.foldl grantData (.node es0) (paths.map (fun p => k :: p)) =
      .node (setKey es0 k (List.foldl grantChild ((lookupKey es0 k).getD (.node [])) paths))
  | [], _, _, hne => absurd rfl hne
  | [p], es0, k, _ => by
    rw [List.map_cons, List.map_nil, List.foldl_cons, List.foldl_nil, List.foldl_cons,
      List.foldl_nil, grantData_cons]
  | p :: p2 :: ps, es0, k, _ => by
    rw [List.map_cons, List.foldl_cons, grantData_cons]
    rw [foldl_grantData_group (p2 :: ps) _ k (by simp)]
    rw [lookupKey_setKey_self, setKey_setKey, Option.getD_some, List.foldl_cons,
      List.foldl_cons, List.foldl_cons]

/-- On nonempty paths `grantChild` is just `grantData`. -/
theorem foldl_grantChild_eq_grantData : ∀ (paths : List (List String))
    (c : PermissionTreeData), (∀ p ∈ paths, p ≠ []) →
    List.foldl grantChild c paths = List.foldl grantData c paths
  | [], c, _ => rfl
  | p :: ps, c, h => by
    rw [List.foldl_cons, List.foldl_cons]
    rw [show grantChild c p = grantData c p from by
      rw [grantChild, if_neg (by
        cases hp : p with
        | nil => exact absurd hp (h p (List.mem_cons_self _ _))
        | cons s rest => simp)]]
    exact foldl_grantChild_eq_grantData ps (grantData c p)
      (fun q hq => h q (List.mem_cons_of_mem _ hq))

mutual

/-- Granting all leaf paths of a well-formed tree into a fresh empty node
rebuilds that tree exactly. -/
theorem rebuild_leafPaths : ∀ (v : PermissionTreeData), v.wf = true →
    List.foldl grantChild (.node []) (leafPaths v) = v
  | .node [], _ => by
    rw [leafPaths, List.foldl_cons, List.foldl_nil, grantChild]
    rfl
  | .node ((k, w) :: es), hwf => by
    rw [leafPaths]
    rw [foldl_grantChild_eq_grantData (leafPathsEntries ((k, w) :: es)) _
      (leafPathsEntries_ne_nil_mem ((k, w) :: es))]
    rw [rebuild_entries ((k, w) :: es) (wf_node ▸ hwf) [] (fun kv _ => rfl)]
    rw [List.nil_append]
termination_by v hwf => sizeOf v
decreasing_by
  all_goals simp only [PermissionTreeData.node.sizeOf_spec]
  all_goals omega

/-- Granting the leaf paths of a well-formed entry list, whose keys are fresh
for the accumulated node, appends exactly those entries. -/
theorem rebuild_entries : ∀ (es : Entries), wfEntries es = true →
    ∀ es0 : Entries, (∀ kv ∈ es, lookupKey es0 kv.1 = none) →
    List.foldl grantData (.node es0) (leafPathsEntries es) = .node (es0 ++ es)
  | [], _, es0, _ => by
    rw [leafPathsEntries, List.foldl_nil]
    simp
  | (k, v) :: rest, hwf, es0, hfresh => by
    rw [wfEntries_cons] at hwf
    have hfk : lookupKey es0 k = none := hfresh (k, v) (List.mem_cons_self _ _)
    rw [leafPathsEntries, List.foldl_append]
    rw [foldl_grantData_group (leafPaths v) es0 k (leafPaths_ne_nil v)]
    rw [hfk, Option.getD_none]
    rw [rebuild_leafPaths v hwf.2.1]
    rw [setKey_of_lookupKey_none hfk]
    rw [rebuild_entries rest hwf.2.2 (es0 ++ [(k, v)]) (by
      intro kv hkv
      obtain ⟨k2, v2⟩ := kv
      rw [lookupKey_append_right (hfresh (k2, v2) (List.mem_cons_of_mem _ hkv))]
      rw [lookupKey, if_neg (show ¬((k == k2) = true) from fun he =>
        key_ne_of_hasKey_false hwf.1 hkv (show k = k2 from by simpa using he).symm)]
      rfl)]
    rw [List.append_assoc, List.singleton_append]
termination_by es hwf es0 hfresh => sizeOf es
decreasing_by
  all_goals simp only [PermissionTreeData.node.sizeOf_spec, List.cons.sizeOf_spec,
    Prod.mk.sizeOf_spec]
  all_goals omega

end

/-- Transport of the fold through the string bridge: granting each dot-joined
path string grants the segment path itself when the path is non-empty and its
labels are dot-free. -/
theorem foldl_grant_from_string : ∀ (paths : List (List String)) (t : PermissionTreeData),
    (∀ p ∈ paths, p ≠ [] ∧ ∀ s ∈ p, ('.' : Char) ∉ s.data) →
    List.foldl (fun acc s => acc.grant_from_string s) (⟨t⟩ : PermissionTree)
      (paths.map (fun p => String.intercalate "." p)) = ⟨List.foldl grantData t paths⟩
  | [], t, _ => rfl
  | p :: ps, t, h => by
    rw [List.map_cons, List.foldl_cons, List.foldl_cons]
    obtain ⟨hne, hdot⟩ := h p (List.mem_cons_self _ _)
    rw [show (⟨t⟩ : PermissionTree).grant_from_string (String.intercalate "." p) =
        ⟨grantData t p⟩ from by
      rw [grant_from_string_def, splitOn_intercalate_dot p hne hdot]]
    exact foldl_grant_from_string ps (grantData t p)
      (fun q hq => h q (List.mem_cons_of_mem _ hq))

/-- Granting every string of `to_strings` into a fresh empty tree rebuilds
the identical tree, for every well-formed tree with dot-free labels. -/
theorem rebuild_eq (T : PermissionTree) (hwf : T.wf = true)
    (hdot : noDotData T._data = true) :
    (⟨.node []⟩ : PermissionTree).grant_many_from_strings T.to_strings = T := by
  obtain ⟨⟨es⟩⟩ := T
  rw [to_strings_eq es]
  rw [show (⟨.node []⟩ : PermissionTree).grant_many_from_strings
      ((leafPathsEntries es).map (fun p => String.intercalate "." p)) =
    List.foldl (fun acc s => acc.grant_from_string s) (⟨.node []⟩ : PermissionTree)
      ((leafPathsEntries es).map (fun p => String.intercalate "." p)) from rfl]
  rw [foldl_grant_from_string (leafPathsEntries es) (.node []) (by
    intro p hp
    refine ⟨leafPathsEntries_ne_nil_mem es p hp, ?_⟩
    intro s hs
    exact leafPathsEntries_noDot es (by rw [noDotData] at hdot; exact hdot) p hp s hs)]
  rw [rebuild_entries es (by rw [← wf_node]; exact hwf) [] (fun kv _ => rfl)]
  rw [List.nil_append]

/-- C6: for every well-formed tree T whose segment labels contain no dot,
granting into a fresh empty tree every string produced by T.to_strings (via
grant_from_string) yields a tree whose check agrees with T's check on every
dotted-path string (indeed the rebuilt tree is structurally identical). -/
theorem c6_round_trip (T : PermissionTree) (hwf : T.wf = true)
    (hdot : noDotData T._data = true) (P : String) :
    ((⟨.node []⟩ : PermissionTree).grant_many_from_strings T.to_strings).check P
      = T.check P := by
  rw [rebuild_eq T hwf hdot]

/-- C6, witness at a concrete input. -/
theorem c6_round_trip_witness :
    ((⟨.node [("a", .node [("b", .node [])]), ("c", .node [])]⟩ : PermissionTree).wf = true
      ∧ noDotData (PermissionTreeData.node [("a", .node [("b", .node [])]),
          ("c", .node [])]) = true)
    ∧ ((⟨.node []⟩ : PermissionTree).grant_many_from_strings
        (⟨.node [("a", .node [("b", .node [])]), ("c", .node [])]⟩ :
          PermissionTree).to_strings).check "a.b"
      = (⟨.node [("a", .node [("b", .node [])]), ("c", .node [])]⟩ :
          PermissionTree).check "a.b" := by
  have h1 : (⟨.node [("a", .node [("b", .node [])]), ("c", .node [])]⟩ :
      PermissionTree).wf = true := by
    simp [PermissionTree.wf, PermissionTreeData.wf, wfEntries, hasKey]
  have h2 : noDotData (PermissionTreeData.node [("a", .node [("b", .node [])]),
      ("c", .node [])]) = true := by
    simp [noDotData, noDotEntries, List.contains]
  exact ⟨⟨h1, h2⟩, c6_round_trip _ h1 h2 "a.b"⟩

end Ommnia
